import Mathlib

/-!
Verification of `linkalytics/factor/constructor/elasticfactor.py`.

Python dictionaries are embedded as association lists in insertion order
(`List (κ × α)`); Python sets are embedded as duplicate-free lists built by
insertion-order adds (equality of Python sets is membership equality, which
the embedding refines); raised Python exceptions are embedded with
`Except PyErr`.
-/

set_option autoImplicit false

namespace Elasticfactor

/-- Python exceptions relevant to this module. -/
inductive PyErr where
  | typeError : PyErr
  | keyError : PyErr
  | nameError : String → PyErr
  deriving DecidableEq, Repr

section Dict

variable {κ : Type} [DecidableEq κ] {α : Type}

/-- `d[k]` as an option: first entry with key `k` (Python dicts never hold
duplicate keys, so the first entry is the entry). -/
def dget : List (κ × α) → κ → Option α
  | [], _ => none
  | p :: rest, k => if p.1 = k then some p.2 else dget rest k

/-- `k in d` for a Python dict. -/
def dcontains (l : List (κ × α)) (k : κ) : Bool :=
  (dget l k).isSome

/-- `d[k] = v`: Python dict assignment keeps the position of an existing key
and appends a fresh key at the end. -/
def dinsert (l : List (κ × α)) (k : κ) (v : α) : List (κ × α) :=
  if dcontains l k then l.map (fun p => if p.1 = k then (k, v) else p)
  else l ++ [(k, v)]

/-- Left-biased choice on `Option`, used to state "later dict wins". -/
def optOr : Option α → Option α → Option α
  | some a, _ => some a
  | none, b => b

@[simp] theorem optOr_none (b : Option α) : optOr none b = b := rfl

@[simp] theorem optOr_some (a : α) (b : Option α) : optOr (some a) b = some a := rfl

@[simp] theorem optOr_none_right (a : Option α) : optOr a none = a := by
  cases a <;> rfl

@[simp] theorem dget_nil (k : κ) : dget ([] : List (κ × α)) k = none := rfl

theorem dget_cons (p : κ × α) (rest : List (κ × α)) (k : κ) :
    dget (p :: rest) k = if p.1 = k then some p.2 else dget rest k := rfl

theorem dget_append (l₁ l₂ : List (κ × α)) (k : κ) :
    dget (l₁ ++ l₂) k = optOr (dget l₁ k) (dget l₂ k) := by
  induction l₁ with
  | nil => simp
  | cons p rest ih =>
      by_cases h : p.1 = k <;> simp [dget_cons, h, ih]

theorem dget_map_update_self (l : List (κ × α)) (k : κ) (v : α) :
    dget (l.map (fun p => if p.1 = k then (k, v) else p)) k
      = (dget l k).map (fun _ => v) := by
  induction l with
  | nil => simp
  | cons p rest ih =>
      by_cases h : p.1 = k <;> simp [dget_cons, h, ih]

theorem dget_map_update_ne (l : List (κ × α)) (k k₂ : κ) (v : α) (h : k₂ ≠ k) :
    dget (l.map (fun p => if p.1 = k then (k, v) else p)) k₂ = dget l k₂ := by
  induction l with
  | nil => simp
  | cons p rest ih =>
      by_cases hp : p.1 = k
      · simp [dget_cons, hp, Ne.symm h, ih]
      · simp only [List.map_cons, if_neg hp, dget_cons, ih]

theorem dget_dinsert (l : List (κ × α)) (k k₂ : κ) (v : α) :
    dget (dinsert l k v) k₂ = if k₂ = k then some v else dget l k₂ := by
  by_cases hc : dcontains l k
  · rw [dinsert, if_pos hc]
    by_cases h : k₂ = k
    · subst h
      rw [dget_map_update_self]
      unfold dcontains at hc
      cases hget : dget l k₂ with
      | none => rw [hget] at hc; simp at hc
      | some a => simp
    · simp [h, dget_map_update_ne l k k₂ v h]
  · rw [dinsert, if_neg hc, dget_append]
    by_cases h : k₂ = k
    · subst h
      unfold dcontains at hc
      have hn : dget l k₂ = none := Option.not_isSome_iff_eq_none.mp hc
      simp [hn, dget_cons]
    · simp [dget_cons, Ne.symm h, h]

theorem dget_dinsert_self (l : List (κ × α)) (k : κ) (v : α) :
    dget (dinsert l k v) k = some v := by
  simp [dget_dinsert]

theorem dget_dinsert_ne (l : List (κ × α)) (k k₂ : κ) (v : α) (h : k₂ ≠ k) :
    dget (dinsert l k v) k₂ = dget l k₂ := by
  simp [dget_dinsert, h]

theorem dcontains_dinsert (l : List (κ × α)) (k k₂ : κ) (v : α) :
    dcontains (dinsert l k v) k₂ = (dcontains l k₂ || decide (k₂ = k)) := by
  unfold dcontains
  rw [dget_dinsert]
  by_cases h : k₂ = k <;> simp [h]

theorem dget_eq_none_of_not_mem_keys (l : List (κ × α)) (k : κ)
    (h : k ∉ l.map Prod.fst) : dget l k = none := by
  induction l with
  | nil => rfl
  | cons p rest ih =>
      simp only [List.map_cons, List.mem_cons] at h
      push_neg at h
      simp [dget_cons, Ne.symm h.1, ih h.2]

end Dict

section PySet

variable {α : Type} [DecidableEq α]

/-- `s.add(i)` on a Python set, embedded as a duplicate-free list in insertion
order (set equality in Python is membership equality, which this refines). -/
def setAdd (s : List α) (i : α) : List α :=
  if i ∈ s then s else s ++ [i]

/-- Add every element of `l` to the set `s`, in order. -/
def addAll (s : List α) (l : List α) : List α :=
  l.foldl setAdd s

@[simp] theorem mem_setAdd (s : List α) (i x : α) :
    x ∈ setAdd s i ↔ x ∈ s ∨ x = i := by
  unfold setAdd
  by_cases h : i ∈ s
  · simp only [if_pos h]
    constructor
    · exact fun hx => Or.inl hx
    · rintro (hx | rfl)
      · exact hx
      · exact h
  · simp [if_neg h]

@[simp] theorem addAll_nil (s : List α) : addAll s [] = s := rfl

theorem addAll_cons (s : List α) (a : α) (l : List α) :
    addAll s (a :: l) = addAll (setAdd s a) l := rfl

theorem mem_addAll (s l : List α) (x : α) :
    x ∈ addAll s l ↔ x ∈ s ∨ x ∈ l := by
  induction l generalizing s with
  | nil => simp
  | cons a rest ih =>
      rw [addAll_cons, ih]
      simp [or_assoc]

end PySet

/-! ### The module-level `flatten` (elasticfactor.py lines 405-437)

A nested suggestion value is either a leaf collection (embedded as a list of
atoms) or a nested dict.  `flatten(data, level)` runs the inner closure
`get_ad_ids(subdict, results, depth)`:

* if `level <= depth` it iterates every value of `subdict` and adds each
  element produced by iterating that value (Python iteration over a dict
  yields its keys, and over a list yields its elements);
* otherwise it walks the values in order, and on meeting a dict value it
  executes `depth = depth + 1` — rebinding the frame-local `depth`, so the
  increment is also seen by all *later* iterations of the same loop — and
  recurses; non-dict values have their elements added.

`goVal`/`goList` thread the pair (results set, frame-local depth) exactly as
the Python loop does. -/

/-- A Python value inside a suggestion dict: a leaf collection or a nested
dict.  Atoms and keys are strings. -/
inductive PyVal where
  | leafList : List String → PyVal
  | dict : List (String × PyVal) → PyVal

/-- `for i in v`: Python iteration over a dict yields its keys, over a list
its elements. -/
def iterElems : PyVal → List String
  | PyVal.leafList l => l
  | PyVal.dict d => d.map Prod.fst

/-- The `level <= depth` branch of `get_ad_ids`: add, for every entry of the
subdict, the elements obtained by iterating its value once. -/
def capAdd (subdict : List (String × PyVal)) (res : List String) : List String :=
  subdict.foldl (fun r p => addAll r (iterElems p.2)) res

mutual

/-- One iteration of the `else` loop body of `get_ad_ids` on the value `v`
with current results `res` and frame-local `depth`; returns the updated
(results, depth) pair. -/
def goVal (level : Nat) : PyVal → List String → Nat → List String × Nat
  | PyVal.leafList l, res, depth => (addAll res l, depth)
  | PyVal.dict d, res, depth =>
      ((if level ≤ depth + 1 then capAdd d res
        else (goList level d res (depth + 1)).1), depth + 1)

/-- The `else` loop of `get_ad_ids` over the remaining entries. -/
def goList (level : Nat) : List (String × PyVal) → List String → Nat → List String × Nat
  | [], res, depth => (res, depth)
  | p :: rest, res, depth =>
      let r := goVal level p.2 res depth
      goList level rest r.1 r.2

end

/-- The inner closure `get_ad_ids(subdict, results, depth)` of `flatten`. -/
def get_ad_ids (level : Nat) (subdict : List (String × PyVal)) (res : List String)
    (depth : Nat) : List String :=
  if level ≤ depth then capAdd subdict res else (goList level subdict res depth).1

/-- Module-level `flatten(data, level)` (elasticfactor.py lines 405-437). -/
def flatten (data : List (String × PyVal)) (level : Nat) : List String :=
  get_ad_ids level data [] 0

mutual

/-- All leaf elements below a value, accumulated in traversal order. -/
def leavesVal : PyVal → List String → List String
  | PyVal.leafList l, res => addAll res l
  | PyVal.dict d, res => leavesList d res

/-- All leaf elements below the values of a dict, accumulated in order. -/
def leavesList : List (String × PyVal) → List String → List String
  | [], res => res
  | p :: rest, res => leavesList rest (leavesVal p.2 res)

end

/-- The set of all leaf elements anywhere below `data`. -/
def allLeaves (data : List (String × PyVal)) : List String :=
  leavesList data []

mutual

/-- Number of dict values nested anywhere below a value (the value itself
included when it is a dict). -/
def dictCountVal : PyVal → Nat
  | PyVal.leafList _ => 0
  | PyVal.dict d => 1 + dictCountList d

/-- Number of dict values nested anywhere below the values of a dict. -/
def dictCountList : List (String × PyVal) → Nat
  | [] => 0
  | p :: rest => dictCountVal p.2 + dictCountList rest

end

/-- Number of dict values among the top-level values of a dict (each of
these bumps the frame-local `depth` of the `get_ad_ids` loop by one). -/
def topDicts : List (String × PyVal) → Nat
  | [] => 0
  | (_, PyVal.dict _) :: rest => 1 + topDicts rest
  | (_, PyVal.leafList _) :: rest => topDicts rest

mutual

/-- Nesting depth of a value, following the claim: a leaf collection has
depth 0 and a dict is one deeper than its deepest value. -/
def depthVal : PyVal → Nat
  | PyVal.leafList _ => 0
  | PyVal.dict d => 1 + depthList d

/-- Deepest nesting depth among the values of a dict. -/
def depthList : List (String × PyVal) → Nat
  | [] => 0
  | p :: rest => max (depthVal p.2) (depthList rest)

end

/-! ### The in-place removal loop of `extend` (elasticfactor.py lines 490-492)

```
for value in new_field_values:
    if value in field_values:
        new_field_values.remove(value)
```

A CPython list iterator keeps an index `i`: each step reads `lst[i]` from the
*current* list and then increments `i`; the loop ends once `i` is out of
range.  `list.remove(v)` deletes the first element equal to `v`.  Removing
therefore shifts the still-unvisited elements one slot left, and the next
read skips one of them.  `removalGo` is that loop with an explicit index; the
`fuel` argument only bounds iteration for structural recursion, and
`fuel = lst.length` is exact because `i` grows by one per step while the list
never grows, so the loop runs at most `lst.length` steps. -/

/-- The index-based removal loop: at each step read `lst[i]`, remove the
first occurrence if the value is in `seen`, then advance `i`. -/
def removalGo (seen : List String) : Nat → List String → Nat → List String
  | 0, lst, _ => lst
  | fuel + 1, lst, i =>
      if h : i < lst.length then
        let v := lst.get ⟨i, h⟩
        if v ∈ seen then removalGo seen fuel (lst.erase v) (i + 1)
        else removalGo seen fuel lst (i + 1)
      else lst

/-- The removal loop of `extend` run to completion on `lst` with the
already-known set `seen`. -/
def removalLoop (lst seen : List String) : List String :=
  removalGo seen lst.length lst 0

/-! ### `combine_two_factors` / `combine_multi_factors` (lines 334-364) -/

section Combine

variable {κ κ₂ β : Type} [DecidableEq κ] [DecidableEq κ₂]

/-- The inner loop of `combine_two_factors` for one outer key `k1`:
`for k2 in addition[k1]: original[k1][k2] = addition[k1][k2]`. -/
def combineInner (k1 : κ) (orig : List (κ × List (κ₂ × β))) (inner : List (κ₂ × β)) :
    List (κ × List (κ₂ × β)) :=
  inner.foldl (fun o q => dinsert o k1 (dinsert ((dget o k1).getD []) q.1 q.2)) orig

/-- `combine_two_factors(original, addition)` (elasticfactor.py lines
334-349): for each outer key of `addition`, create it empty in `original`
when missing, then copy every inner pair of `addition` over. -/
def combine_two_factors (original addition : List (κ × List (κ₂ × β))) :
    List (κ × List (κ₂ × β)) :=
  addition.foldl
    (fun orig p =>
      combineInner p.1 (if dcontains orig p.1 then orig else dinsert orig p.1 []) p.2)
    original

/-- Two-level lookup `d[k1][k2]` as an option. -/
def dget2 (o : List (κ × List (κ₂ × β))) (k1 : κ) (k2 : κ₂) : Option β :=
  match dget o k1 with
  | some inner => dget inner k2
  | none => none

/-- A well-formed embedded Python dict of dicts: no duplicate outer keys and
no duplicate inner keys (Python dicts cannot hold duplicates). -/
def WFDict (a : List (κ × List (κ₂ × β))) : Prop :=
  (a.map Prod.fst).Nodup ∧ ∀ p ∈ a, (p.2.map Prod.fst).Nodup

instance (a : List (κ × List (κ₂ × β))) : Decidable (WFDict a) := by
  unfold WFDict
  infer_instance

end Combine

/-! ### `ElasticFactor.reduce` (lines 134-152)

`reduce` first builds `combined = self.combine(ad_id, *factors)[ad_id]`, a
mapping factor-name → (inner dict whose values are collections);
`self.combine` lives in `factor.py` (not part of this source), so the
combined mapping is taken as a parameter, exactly as the claim quantifies
over it.  Then it computes
`reduce(intersect, (reduce(union, map(set, combined[factor].values()), set()) for factor in factors))`:
the intersection over the requested factors of the union of each factor's
value collections.  `functools.reduce` with no initializer takes the first
generated element as the initial accumulator and raises on an empty
sequence, hence the option result. -/

/-- `reduce(union, map(set, combined[factor].values()), set())`: the union of
the value collections stored under factor `f`. -/
def unionVals (combined : String → List (String × List String)) (f : String) :
    Finset String :=
  ((combined f).map (fun p => p.2.toFinset)).foldl (fun a b => a ∪ b) ∅

/-- `ElasticFactor.reduce(ad_id, *factors)` over the combined per-entity
mapping: intersection across the factors of each factor's value union;
`none` when no factor is requested (Python raises `TypeError`). -/
def reduceFactors (combined : String → List (String × List String)) :
    List String → Option (Finset String)
  | [] => none
  | f :: fs => some (fs.foldl (fun acc g => acc ∩ unionVals combined g) (unionVals combined f))

/-! ### The module-level `suggest` (lines 367-386)

`suggest` wraps `factor.suggest(ad_id, factor_label)` — the method is
defined in `factor.py`, not in this source.  The wrapped lookup is therefore
a parameter producing an arbitrary Python value (or raising).  Subscripting
and `len` follow Python semantics: subscripting anything but a dict raises
`TypeError`, a missing key raises `KeyError`, and `len` of a non-sized value
raises `TypeError`. -/

/-- Modelled from the spec: the value returned by the underlying
`ElasticFactor.suggest` method (in `factor.py`, which is not part of this
source): a nested suggestion mapping `{ad_id: {factor: values}}` whose parts
may be absent (`None`). -/
inductive SVal where
  | none : SVal
  | num : Nat → SVal
  | vlist : List String → SVal
  | vdict : List (String × SVal) → SVal

/-- Python subscript `v[k]`: `TypeError` unless `v` is a dict, `KeyError`
when the key is missing. -/
def pySubscript : SVal → String → Except PyErr SVal
  | SVal.vdict d, k =>
      match dget d k with
      | some v => Except.ok v
      | none => Except.error PyErr.keyError
  | _, _ => Except.error PyErr.typeError

/-- Python `len(v)`: `TypeError` unless `v` is sized. -/
def pyLen : SVal → Except PyErr Nat
  | SVal.vlist l => Except.ok l.length
  | SVal.vdict d => Except.ok d.length
  | _ => Except.error PyErr.typeError

/-- The body of the `try:` block of `suggest`: call the underlying lookup,
then evaluate `len(suggestions[ad_id][factor_label])`; produces the
suggestions value and that length. -/
def suggestBody (m : String → String → Except PyErr SVal)
    (ad_id factor_label : String) : Except PyErr (SVal × Nat) := do
  let s ← m ad_id factor_label
  let a ← pySubscript s ad_id
  let b ← pySubscript a factor_label
  let n ← pyLen b
  pure (s, n)

/-- Module-level `suggest(ad_id, factor_label, url)` (lines 367-386): return
`None` when the requested factor's suggestion set is empty, the suggestions
otherwise; a `TypeError` anywhere in the body is caught and turned into
`None`, every other exception propagates. -/
def suggest (m : String → String → Except PyErr SVal)
    (ad_id factor_label : String) : Except PyErr (Option SVal) :=
  match suggestBody m ad_id factor_label with
  | Except.error PyErr.typeError => Except.ok Option.none
  | Except.error e => Except.error e
  | Except.ok (s, n) => Except.ok (if n = 0 then Option.none else some s)

/-! ### `factor_constructor` (lines 389-402)

Its parameter is named `factor_labe3`, but the comprehension
`[suggest(ad_id, i, url) for i in factor_labels]` iterates over the name
`factor_labels`.  Python evaluates the comprehension's iterable first, by
resolving the name in the local, then module, then builtin scope; no scope
binds `factor_labels`, so every call raises `NameError` before anything else
runs. -/

/-- The names bound at module level in elasticfactor.py (imports and
top-level defs). -/
def moduleNames : List String :=
  ["json", "logging", "urllib3", "Elasticsearch", "reduce", "FactorBase",
   "cfg", "es_log", "urllib3_log", "ElasticFactor", "combine_two_factors",
   "combine_multi_factors", "suggest", "factor_constructor", "flatten",
   "prune", "extend", "main"]

/-- Python name resolution inside a function body: local scope, then module
scope; an unbound name raises `NameError`.  (`factor_labels` is not a Python
builtin either.) -/
def resolveName (locals : List String) (n : String) : Except PyErr String :=
  if n ∈ locals ∨ n ∈ moduleNames then Except.ok n
  else Except.error (PyErr.nameError n)

/-- `factor_constructor(ad_id, factor_labe3, url)` (lines 389-402).  The
body first resolves the comprehension iterable `factor_labels`; its locals
are only the three parameters.  The resolution fails, so the rest of the
body (building the suggestion list and combining it) is unreachable. -/
def factor_constructor (ad_id : String) ( factor_labe3 : List String) (url : String) :
    Except PyErr (List (String × PyVal)) := do
  let _ ← resolveName ["ad_id", "factor_labe3", "url"] "factor_labels"
  -- unreachable: the name above never resolves, and were it bound the
  -- comprehension and `combine_multi_factors(suggestions)` would run here
  Except.error (PyErr.nameError "factor_labels")

/-! ### `prune` (lines 440-466) and `extend` (lines 469-495) -/

/-- `prune(data, keepers)` (lines 440-466): the whole pruning body is
commented out; the function ignores both arguments and returns `{}`. -/
def prune {α β : Type} (data : α) (keepers : β) : List (String × PyVal) :=
  []

/-- The `for ad_id in ad_ids_2:` loop of `extend`: query a fresh factor dict
for each id, run the buggy removal loop against the already-known values,
and overwrite `data[degree]` with `prune`'s result.  A raised exception
aborts the loop. -/
def extendLoop (fc : String → List String → String → Except PyErr (List (String × PyVal)))
    (url : String) (factor_values : List String) (degree : String) (field_values : List String) :
    List String → List (String × List (String × PyVal)) →
      Except PyErr (List (String × List (String × PyVal)))
  | [], data => Except.ok data
  | ad_id :: rest, data =>
      match fc ad_id factor_values url with
      | Except.error e => Except.error e
      | Except.ok addition =>
          let new_field_values := removalLoop (flatten addition 1) field_values
          extendLoop fc url factor_values degree field_values rest
            (dinsert data degree (prune addition new_field_values))

/-- `extend(data, url, factor_values, degree)` (lines 469-495), parametrised
by the factor construction function it calls (the source calls
`factor_constructor`): collect the known field values from the current data,
set `data[degree] = {}`, flatten the ids at level 10, and loop. -/
def extendWith (fc : String → List String → String → Except PyErr (List (String × PyVal)))
    (data : List (String × List (String × PyVal))) (url : String)
    (factor_values : List String) (degree : String) :
    Except PyErr (List (String × List (String × PyVal))) :=
  let field_values := data.foldl (fun s p => addAll s (flatten p.2 1)) []
  let data1 := dinsert data degree []
  let ad_ids_2 := flatten (data1.map (fun p => (p.1, PyVal.dict p.2))) 10
  extendLoop fc url factor_values degree field_values ad_ids_2 data1

/-- `extend` as written in the source, calling `factor_constructor`. -/
def extend (data : List (String × List (String × PyVal))) (url : String)
    (factor_values : List String) (degree : String) :
    Except PyErr (List (String × List (String × PyVal))) :=
  extendWith factor_constructor data url factor_values degree

/-! ### The query layer: `reverse_lookup` (lines 177-208) and `available`
(lines 61-83)

The Elasticsearch backend is modelled as a function from query payloads to
results.  A hit carries its `_id` and its `_source` document. -/

/-- An Elasticsearch query body as built in this module. -/
inductive Query where
  | matchPhrase : String → String → Query
  | idsQuery : List String → Query
  | matchQuery : String → String → Query
  deriving DecidableEq, Repr

/-- A search payload: the fixed result-size cap and the query. -/
structure Payload where
  size : Nat
  query : Query
  deriving DecidableEq, Repr

/-- One search hit: its `_id` and its `_source` document. -/
structure Hit where
  id : String
  source : List (String × SVal)

/-- A search result: `hits.total` and `hits.hits`. -/
structure SearchResult where
  total : Nat
  hits : List Hit

/-- `ElasticFactor.reverse_lookup(field, field_value)` (lines 177-208),
instrumented with the list of payloads issued to the backend, in order:
phrase-query the field; when the result's total is zero (Python falsiness of
`results['hits']['total']`), re-issue the phrase query against `_all`; return
the `_id` of each kept hit. -/
def reverse_lookup (es : Payload → SearchResult) (size : Nat)
    (field field_value : String) : List Payload × List String :=
  let p1 : Payload := ⟨size, Query.matchPhrase field field_value⟩
  let results := es p1
  if results.total = 0 then
    let p2 : Payload := ⟨size, Query.matchPhrase "_all" field_value⟩
    let results2 := es p2
    ([p1, p2], results2.hits.map Hit.id)
  else
    ([p1], results.hits.map Hit.id)

/-- Set union `x|y` on Python sets embedded as duplicate-free lists. -/
def setUnion (a b : List String) : List String :=
  addAll a b

/-- `set(i['_source'].keys())` for one hit. -/
def sourceKeys (h : Hit) : List String :=
  addAll [] (h.source.map Prod.fst)

/-- `ElasticFactor.available(ad_id)` (lines 61-83): phrase-query `_id`, then
fold set union over the key sets of the hit sources (the final `list(...)`
keeps the elements). -/
def available (es : Payload → SearchResult) (size : Nat) (ad_id : String) :
    List String :=
  let payload : Payload := ⟨size, Query.matchPhrase "_id" ad_id⟩
  let results := es payload
  let keys := results.hits.map sourceKeys
  keys.foldl (fun x y => setUnion x y) []

/-! ### Concrete inputs used by witness theorems -/

/-- An underlying suggestion lookup that yields `None` (an absent factor). -/
def mNone : String → String → Except PyErr SVal :=
  fun _ _ => Except.ok SVal.none

/-- A suggestion value whose factor entry is present but empty. -/
def sEmpty : SVal :=
  SVal.vdict [("63166071", SVal.vdict [("phone", SVal.vlist [])])]

/-- An underlying suggestion lookup that yields an empty factor. -/
def mEmpty : String → String → Except PyErr SVal :=
  fun _ _ => Except.ok sEmpty

/-- A concrete combined per-entity mapping with two factors. -/
def combinedW : String → List (String × List String) :=
  fun f => if f = "phone" then [("5551", ["A", "B"])] else [("x", ["B", "C"])]

/-- The reduced set for `combinedW` over the factors `phone, email`. -/
def theS : Finset String :=
  (reduceFactors combinedW ["phone", "email"]).getD ∅

/-- A one-entry expansion state holding a single known ad. -/
def dataW : List (String × List (String × PyVal)) :=
  [("original", [("63166071", PyVal.leafList ["5551234567"])])]

/-- The counterexample data for the `flatten` level claim: three leaf-only
sibling dicts followed by a dict that nests one dict deeper. -/
def dataCE : List (String × PyVal) :=
  [("s1", PyVal.dict [("x", PyVal.leafList ["1"])]),
   ("s2", PyVal.dict [("y", PyVal.leafList ["2"])]),
   ("s3", PyVal.dict [("z", PyVal.leafList ["3"])]),
   ("s4", PyVal.dict [("c", PyVal.dict [("w", PyVal.leafList ["4"])])])]

/-!
## Theorems
-/

/-- C7: `prune` is an unimplemented no-op stub: its result is independent of
both of its arguments (and is the empty dict), for arguments of any types. -/
theorem prune_is_constant_stub :
    ∀ (α β γ δ : Type) (d : α) (k : β) (e : γ) (j : δ),
      prune d k = prune e j ∧ prune d k = ([] : List (String × PyVal)) := by
  intro α β γ δ d k e j
  exact ⟨rfl, rfl⟩

/-- C9: with the search backend modelled as a fixed function (unchanged
backing data), two calls of `available` on the same ad return the same field
set: the embedding makes the backing data an explicit argument, and
`available` is a pure function of it, so the two calls are literally the
same value. -/
theorem available_idempotent :
    ∀ (es : Payload → SearchResult) (size : Nat) (ad_id : String),
      available es size ad_id = available es size ad_id := by
  intro es size ad_id
  rfl

/-- C6: `reverse_lookup` issues the `_all` fallback phrase query exactly when
the initial phrase query's total is zero, issues it at most once (the issued
list is either the initial query alone or the initial query followed by the
fallback), and returns the `_id` of each hit of the last query issued. -/
theorem reverse_lookup_fallback_iff :
    ∀ (es : Payload → SearchResult) (size : Nat) (field field_value : String),
      ((reverse_lookup es size field field_value).1
          = [⟨size, Query.matchPhrase field field_value⟩,
             ⟨size, Query.matchPhrase "_all" field_value⟩]
        ↔ (es ⟨size, Query.matchPhrase field field_value⟩).total = 0) ∧
      ((reverse_lookup es size field field_value).1
          = [⟨size, Query.matchPhrase field field_value⟩]
        ↔ (es ⟨size, Query.matchPhrase field field_value⟩).total ≠ 0) ∧
      (reverse_lookup es size field field_value).2
        = (es ((reverse_lookup es size field field_value).1.getLastD
            ⟨size, Query.matchPhrase field field_value⟩)).hits.map Hit.id := by
  intro es size field field_value
  by_cases h : (es ⟨size, Query.matchPhrase field field_value⟩).total = 0 <;>
    simp [reverse_lookup, h, List.getLastD]

/-- C2: the removal loop of `extend` mutates the list it iterates and skips
elements: there is an input list of newly discovered values (two consecutive
already-known values) and a set of already-known values for which, after the
loop, the list still contains an already-known value. -/
theorem removal_loop_retains_seen_value :
    ∃ (lst seen : List String) (v : String),
      v ∈ removalLoop lst seen ∧ v ∈ seen := by
  refine ⟨["a", "b"], ["a", "b"], "b", ?_, ?_⟩ <;> decide

/-- C8: a `TypeError` raised while constructing suggestions inside the
module-level `suggest` is caught and turned into `None` (never propagated),
and an empty suggestion set for the requested factor also yields `None`
without an error. -/
theorem suggest_catches_typeError :
    ∀ (m : String → String → Except PyErr SVal) (ad_id factor_label : String),
      (suggest m ad_id factor_label ≠ Except.error PyErr.typeError) ∧
      (suggestBody m ad_id factor_label = Except.error PyErr.typeError →
        suggest m ad_id factor_label = Except.ok Option.none) ∧
      (∀ s n, suggestBody m ad_id factor_label = Except.ok (s, n) → n = 0 →
        suggest m ad_id factor_label = Except.ok Option.none) := by
  intro m ad_id factor_label
  refine ⟨?_, ?_, ?_⟩
  · unfold suggest
    cases hb : suggestBody m ad_id factor_label with
    | error e => cases e <;> simp
    | ok p => simp
  · intro h
    unfold suggest
    rw [h]
  · intro s n h hn
    unfold suggest
    rw [h, hn]
    simp

/-- Witness for C8: an absent factor (`None` from the underlying lookup)
raises `TypeError` in the body, and an empty factor makes the length zero;
both are answered with `None`. -/
theorem suggest_catches_typeError_inst :
    suggest mNone "63166071" "phone" = Except.ok Option.none ∧
    suggest mEmpty "63166071" "phone" = Except.ok Option.none :=
  ⟨(suggest_catches_typeError mNone "63166071" "phone").2.1 rfl,
   (suggest_catches_typeError mEmpty "63166071" "phone").2.2 sEmpty 0 rfl rfl⟩

theorem factor_constructor_eqn (a : String) (l : List String) (u : String) :
    factor_constructor a l u = Except.error (PyErr.nameError "factor_labels") := by
  have hres : resolveName ["ad_id", "factor_labe3", "url"] "factor_labels"
      = Except.error (PyErr.nameError "factor_labels") := by
    unfold resolveName
    rw [if_neg]
    decide
  unfold factor_constructor
  rw [hres]
  rfl

/-- C3: every call of `factor_constructor` raises `NameError` — its parameter
is `factor_labe3` but its body iterates the unbound name `factor_labels` —
and consequently every call of `extend` whose flattened id set is non-empty
propagates that `NameError`. -/
theorem factor_constructor_always_nameError :
    (∀ (a : String) (l : List String) (u : String),
      factor_constructor a l u = Except.error (PyErr.nameError "factor_labels")) ∧
    (∀ (data : List (String × List (String × PyVal))) (url : String)
        (factor_values : List String) (degree : String),
      flatten ((dinsert data degree ([] : List (String × PyVal))).map
          (fun p => (p.1, PyVal.dict p.2))) 10 ≠ [] →
        extend data url factor_values degree
          = Except.error (PyErr.nameError "factor_labels")) := by
  constructor
  · exact factor_constructor_eqn
  · intro data url factor_values degree h
    simp only [extend, extendWith]
    cases hxs : flatten ((dinsert data degree ([] : List (String × PyVal))).map
        (fun p => (p.1, PyVal.dict p.2))) 10 with
    | nil => exact absurd hxs h
    | cons a rest =>
        simp [extendLoop, factor_constructor_eqn]

/-- Witness for C3: a concrete call of `factor_constructor`, and a concrete
expansion state whose flattened id set is non-empty, both end in the
`NameError`. -/
theorem factor_constructor_always_nameError_inst :
    factor_constructor "63166071" ["phone"] "url" =
      Except.error (PyErr.nameError "factor_labels") ∧
    extend dataW "url" ["phone"] "ext2" =
      Except.error (PyErr.nameError "factor_labels") :=
  ⟨factor_constructor_always_nameError.1 "63166071" ["phone"] "url",
   factor_constructor_always_nameError.2 dataW "url" ["phone"] "ext2" (by decide)⟩

theorem extendLoop_degree_empty
    (fc : String → List String → String → Except PyErr (List (String × PyVal)))
    (url : String) (factor_values : List String) (degree : String)
    (field_values : List String) :
    ∀ (ids : List String) (data out : List (String × List (String × PyVal))),
      dget data degree = some [] →
      extendLoop fc url factor_values degree field_values ids data = Except.ok out →
      dget out degree = some ([] : List (String × PyVal)) := by
  intro ids
  induction ids with
  | nil =>
      intro data out hdeg hrun
      unfold extendLoop at hrun
      cases hrun
      exact hdeg
  | cons a rest ih =>
      intro data out hdeg hrun
      unfold extendLoop at hrun
      cases hfc : fc a factor_values url with
      | error e => rw [hfc] at hrun; cases hrun
      | ok addition =>
          rw [hfc] at hrun
          exact ih _ out (dget_dinsert_self data degree _) hrun

/-- C10: whenever the expansion loop of `extend` returns normally — for any
factor construction function `fc` (the source instantiates
`extend = extendWith factor_constructor`) — the entry under the degree key
of the result is the empty dict: it is initialised to `{}` and every loop
iteration overwrites it with `prune`'s constant result. -/
theorem extend_degree_entry_empty :
    ∀ (fc : String → List String → String → Except PyErr (List (String × PyVal)))
      (data : List (String × List (String × PyVal))) (url : String)
      (factor_values : List String) (degree : String)
      (out : List (String × List (String × PyVal))),
      extendWith fc data url factor_values degree = Except.ok out →
      dget out degree = some ([] : List (String × PyVal)) := by
  intro fc data url factor_values degree out hrun
  unfold extendWith at hrun
  exact extendLoop_degree_empty fc url factor_values degree _ _
    (dinsert data degree []) out (dget_dinsert_self data degree []) hrun

/-- Witness for C10: expanding an empty state returns normally and leaves the
degree entry empty. -/
theorem extend_degree_entry_empty_inst :
    dget [("ext2", ([] : List (String × PyVal)))] "ext2"
      = some ([] : List (String × PyVal)) :=
  extend_degree_entry_empty factor_constructor [] "url" ["phone"] "ext2"
    [("ext2", [])] (by rfl)

theorem mem_foldl_union (l : List (Finset String)) (init : Finset String) (x : String) :
    x ∈ l.foldl (fun a b => a ∪ b) init ↔ x ∈ init ∨ ∃ s ∈ l, x ∈ s := by
  induction l generalizing init with
  | nil => simp
  | cons s rest ih =>
      rw [List.foldl_cons, ih]
      simp [or_assoc]

theorem mem_unionVals (combined : String → List (String × List String))
    (f : String) (x : String) :
    x ∈ unionVals combined f ↔ ∃ p ∈ combined f, x ∈ p.2 := by
  unfold unionVals
  rw [mem_foldl_union]
  constructor
  · rintro (hx | ⟨s, hs, hx⟩)
    · simp at hx
    · rw [List.mem_map] at hs
      obtain ⟨p, hp, rfl⟩ := hs
      exact ⟨p, hp, List.mem_toFinset.mp hx⟩
  · rintro ⟨p, hp, hx⟩
    exact Or.inr ⟨p.2.toFinset, List.mem_map.mpr ⟨p, hp, rfl⟩, List.mem_toFinset.mpr hx⟩

theorem mem_foldl_inter (combined : String → List (String × List String))
    (fs : List String) (init : Finset String) (v : String) :
    v ∈ fs.foldl (fun acc g => acc ∩ unionVals combined g) init ↔
      v ∈ init ∧ ∀ g ∈ fs, v ∈ unionVals combined g := by
  induction fs generalizing init with
  | nil => simp
  | cons g rest ih =>
      rw [List.foldl_cons, ih]
      simp [and_assoc]

/-- C1: for a non-empty factor list, `reduce` returns exactly the values
that, for each requested factor, lie in the union of the value collections
stored under that factor in the combined per-entity mapping. -/
theorem reduce_mem_iff :
    ∀ (combined : String → List (String × List String)) (f : String)
      (fs : List String) (S : Finset String),
      reduceFactors combined (f :: fs) = some S →
      ∀ v : String, v ∈ S ↔ ∀ g ∈ f :: fs, ∃ p ∈ combined g, v ∈ p.2 := by
  intro combined f fs S hS v
  unfold reduceFactors at hS
  cases hS
  rw [mem_foldl_inter]
  simp only [List.mem_cons, forall_eq_or_imp, mem_unionVals]

/-- Witness for C1: a concrete combined mapping with two factors; the common
value is characterised through the theorem. -/
theorem reduce_mem_iff_inst :
    ("B" ∈ theS ↔
      ∀ g ∈ (["phone", "email"] : List String), ∃ p ∈ combinedW g, "B" ∈ p.2) :=
  reduce_mem_iff combinedW "phone" ["email"] theS rfl "B"

section CombineLemmas

variable {κ κ₂ β : Type} [DecidableEq κ] [DecidableEq κ₂]

theorem combineInner_dget_ne (inner : List (κ₂ × β)) :
    ∀ (orig : List (κ × List (κ₂ × β))) (k1 k1' : κ), k1' ≠ k1 →
      dget (combineInner k1 orig inner) k1' = dget orig k1' := by
  induction inner with
  | nil => intro orig k1 k1' h; rfl
  | cons q rest ih =>
      intro orig k1 k1' h
      unfold combineInner
      rw [List.foldl_cons]
      have := ih (dinsert orig k1 (dinsert ((dget orig k1).getD []) q.1 q.2)) k1 k1' h
      unfold combineInner at this
      rw [this, dget_dinsert_ne _ _ _ _ h]

theorem combineInner_dcontains (inner : List (κ₂ × β)) :
    ∀ (orig : List (κ × List (κ₂ × β))) (k1 k' : κ), dcontains orig k1 = true →
      dcontains (combineInner k1 orig inner) k' = dcontains orig k' := by
  induction inner with
  | nil => intro orig k1 k' hc; rfl
  | cons q rest ih =>
      intro orig k1 k' hc
      unfold combineInner
      rw [List.foldl_cons]
      have hc2 : dcontains (dinsert orig k1 (dinsert ((dget orig k1).getD []) q.1 q.2)) k1
          = true := by
        unfold dcontains
        rw [dget_dinsert_self]
        rfl
      have := ih (dinsert orig k1 (dinsert ((dget orig k1).getD []) q.1 q.2)) k1 k' hc2
      unfold combineInner at this
      rw [this, dcontains_dinsert]
      by_cases h : k' = k1
      · subst h
        rw [hc]
        simp
      · simp [h]

theorem combineInner_dget2_self (inner : List (κ₂ × β)) :
    ∀ (orig : List (κ × List (κ₂ × β))) (k1 : κ), dcontains orig k1 = true →
      (inner.map Prod.fst).Nodup →
      ∀ k2 : κ₂, dget2 (combineInner k1 orig inner) k1 k2
        = optOr (dget inner k2) (dget2 orig k1 k2) := by
  induction inner with
  | nil => intro orig k1 hc hnd k2; simp [combineInner, dget2]
  | cons q rest ih =>
      intro orig k1 hc hnd k2
      rw [List.map_cons, List.nodup_cons] at hnd
      obtain ⟨hq, hndr⟩ := hnd
      have hbase : dget2 orig k1 k2 = dget ((dget orig k1).getD []) k2 := by
        unfold dcontains at hc
        cases hget : dget orig k1 with
        | none => rw [hget] at hc; simp at hc
        | some i => simp [dget2, hget]
      have hc2 : dcontains (dinsert orig k1 (dinsert ((dget orig k1).getD []) q.1 q.2)) k1
          = true := by
        unfold dcontains
        rw [dget_dinsert_self]
        rfl
      unfold combineInner
      rw [List.foldl_cons]
      have hrec := ih (dinsert orig k1 (dinsert ((dget orig k1).getD []) q.1 q.2)) k1 hc2 hndr k2
      unfold combineInner at hrec
      rw [hrec]
      have hmid : dget2 (dinsert orig k1 (dinsert ((dget orig k1).getD []) q.1 q.2)) k1 k2
          = if k2 = q.1 then some q.2 else dget ((dget orig k1).getD []) k2 := by
        simp [dget2, dget_dinsert_self, dget_dinsert]
      rw [hmid, hbase, dget_cons]
      by_cases h : k2 = q.1
      · have hnone : dget rest k2 = none := by
          apply dget_eq_none_of_not_mem_keys
          rw [h]
          simpa using hq
        rw [if_pos h, if_pos h.symm, hnone, optOr_none, optOr_some]
      · rw [if_neg h, if_neg (Ne.symm h)]

theorem combine_step_eq (orig : List (κ × List (κ₂ × β))) (p : κ × List (κ₂ × β))
    (rest : List (κ × List (κ₂ × β))) :
    combine_two_factors orig (p :: rest)
      = combine_two_factors
          (combineInner p.1 (if dcontains orig p.1 then orig else dinsert orig p.1 []) p.2)
          rest := by
  unfold combine_two_factors
  rw [List.foldl_cons]

theorem combine_dcontains (addition : List (κ × List (κ₂ × β))) :
    ∀ (original : List (κ × List (κ₂ × β))) (k : κ),
      dcontains (combine_two_factors original addition) k
        = (dcontains original k || dcontains addition k) := by
  induction addition with
  | nil => intro original k; simp [combine_two_factors, dcontains, dget]
  | cons p rest ih =>
      intro original k
      rw [combine_step_eq, ih]
      have hc1 : dcontains (if dcontains original p.1 then original
          else dinsert original p.1 []) p.1 = true := by
        by_cases hc : dcontains original p.1
        · rw [if_pos hc]; exact hc
        · rw [if_neg hc]
          unfold dcontains
          rw [dget_dinsert_self]
          rfl
      rw [combineInner_dcontains _ _ _ _ hc1]
      have hcons : dcontains (p :: rest) k
          = (decide (p.1 = k) || dcontains rest k) := by
        unfold dcontains
        rw [dget_cons]
        by_cases h : p.1 = k <;> simp [h]
      rw [hcons]
      by_cases hc : dcontains original p.1
      · rw [if_pos hc]
        by_cases h : p.1 = k
        · rw [← h, hc]
          simp
        · simp [h]
      · rw [if_neg hc, dcontains_dinsert]
        by_cases h : p.1 = k
        · rw [← h]
          simp
        · have hkp : decide (k = p.1) = false := by
            simp only [decide_eq_false_iff_not]
            exact fun hh => h hh.symm
          rw [hkp]
          simp [h]

theorem combine_dget2 (addition : List (κ × List (κ₂ × β))) :
    ∀ (original : List (κ × List (κ₂ × β))), WFDict addition →
      ∀ (k1 : κ) (k2 : κ₂),
        dget2 (combine_two_factors original addition) k1 k2
          = optOr (dget2 addition k1 k2) (dget2 original k1 k2) := by
  induction addition with
  | nil => intro original hwf k1 k2; simp [combine_two_factors, dget2, dget]
  | cons p rest ih =>
      intro original hwf k1 k2
      obtain ⟨hout, hinner⟩ := hwf
      rw [List.map_cons, List.nodup_cons] at hout
      obtain ⟨hp1, houtr⟩ := hout
      have hwfr : WFDict rest :=
        ⟨houtr, fun q hq => hinner q (List.mem_cons_of_mem p hq)⟩
      have hndp : (p.2.map Prod.fst).Nodup := hinner p (List.mem_cons_self p rest)
      rw [combine_step_eq, ih _ hwfr]
      have hc1 : dcontains (if dcontains original p.1 then original
          else dinsert original p.1 []) p.1 = true := by
        by_cases hc : dcontains original p.1
        · rw [if_pos hc]; exact hc
        · rw [if_neg hc]
          unfold dcontains
          rw [dget_dinsert_self]
          rfl
      have hmid : dget2 (combineInner p.1
          (if dcontains original p.1 then original else dinsert original p.1 []) p.2) k1 k2
          = if k1 = p.1 then optOr (dget p.2 k2) (dget2 original p.1 k2)
            else dget2 original k1 k2 := by
        by_cases h : k1 = p.1
        · rw [if_pos h, h, combineInner_dget2_self _ _ _ hc1 hndp]
          by_cases hc : dcontains original p.1
          · rw [if_pos hc]
          · rw [if_neg hc]
            have hnone : dget original p.1 = none :=
              Option.not_isSome_iff_eq_none.mp hc
            simp [dget2, dget_dinsert_self, hnone]
        · rw [if_neg h]
          unfold dget2
          rw [combineInner_dget_ne _ _ _ _ h]
          by_cases hc : dcontains original p.1
          · rw [if_pos hc]
          · rw [if_neg hc, dget_dinsert_ne _ _ _ _ h]
      rw [hmid]
      have hhead : dget2 (p :: rest) k1 k2
          = if k1 = p.1 then dget p.2 k2 else dget2 rest k1 k2 := by
        by_cases h : k1 = p.1
        · rw [if_pos h]
          unfold dget2
          rw [dget_cons, if_pos h.symm]
        · rw [if_neg h]
          unfold dget2
          rw [dget_cons, if_neg (Ne.symm h)]
      rw [hhead]
      by_cases h : k1 = p.1
      · rw [if_pos h, if_pos h, h]
        have hnone : dget2 rest p.1 k2 = none := by
          unfold dget2
          rw [dget_eq_none_of_not_mem_keys rest p.1 hp1]
        rw [hnone, optOr_none]
      · rw [if_neg h, if_neg h]

end CombineLemmas

/-- C4: `combine_two_factors` returns the two-level union: its outer keys
are the union of both inputs' outer keys; lookups fall back from `addition`
to `original`, so `addition` wins on an `(outer, inner)` collision and
otherwise both inner mappings survive; and in particular
`combine_two_factors({x:{1:1}}, {x:{2:2}})` is `{x:{1:1, 2:2}}` — a union,
not an overwrite, at the second level. -/
theorem combine_two_factors_union :
    ∀ (κ κ₂ β : Type) (i1 : DecidableEq κ) (i2 : DecidableEq κ₂)
      (original addition : List (κ × List (κ₂ × β))), WFDict addition →
      (∀ k : κ, dcontains (combine_two_factors original addition) k
        = (dcontains original k || dcontains addition k)) ∧
      (∀ (k1 : κ) (k2 : κ₂),
        dget2 (combine_two_factors original addition) k1 k2
          = optOr (dget2 addition k1 k2) (dget2 original k1 k2)) ∧
      (∀ x : String,
        combine_two_factors [(x, [((1 : Nat), (1 : Nat))])] [(x, [(2, 2)])]
          = [(x, [(1, 1), (2, 2)])]) := by
  intro κ κ₂ β i1 i2 original addition hwf
  refine ⟨fun k => combine_dcontains addition original k,
          fun k1 k2 => combine_dget2 addition original hwf k1 k2,
          fun x => ?_⟩
  simp [combine_two_factors, combineInner, dinsert, dcontains, dget]

/-- Witness for C4: the concrete second-level union of the claim. -/
theorem combine_two_factors_union_inst :
    combine_two_factors [("x", [((1 : Nat), (1 : Nat))])] [("x", [(2, 2)])]
      = [("x", [(1, 1), (2, 2)])] :=
  (combine_two_factors_union String Nat Nat inferInstance inferInstance
    [("x", [(1, 1)])] [("x", [(2, 2)])] (by decide)).2.2 "x"

theorem mem_capAdd (d : List (String × PyVal)) :
    ∀ (res : List String) (x : String),
      x ∈ capAdd d res ↔ x ∈ res ∨ ∃ p ∈ d, x ∈ iterElems p.2 := by
  induction d with
  | nil => simp [capAdd]
  | cons p rest ih =>
      intro res x
      unfold capAdd
      rw [List.foldl_cons]
      have hrec := ih (addAll res (iterElems p.2)) x
      unfold capAdd at hrec
      rw [hrec, mem_addAll]
      simp [or_assoc]

theorem goList_leaves (level : Nat) :
    ∀ (n : Nat) (d : List (String × PyVal)) (res : List String) (depth : Nat),
      sizeOf d ≤ n → depth + dictCountList d < level →
      goList level d res depth = (leavesList d res, depth + topDicts d) := by
  intro n
  induction n using Nat.strong_induction_on with
  | _ n ih =>
    intro d res depth hsize hlevel
    cases d with
    | nil => simp [goList, leavesList, topDicts]
    | cons hd rest =>
      obtain ⟨k, v⟩ := hd
      cases v with
      | leafList l =>
          have hsr : sizeOf rest < n := by
            have : sizeOf rest < sizeOf ((k, PyVal.leafList l) :: rest) := by
              simp
            omega
          have hlr : depth + dictCountList rest < level := by
            simp [dictCountList, dictCountVal] at hlevel
            omega
          simp only [goList, goVal]
          rw [ih (sizeOf rest) hsr rest (addAll res l) depth (le_refl _) hlr]
          simp [leavesList, leavesVal, topDicts]
      | dict dd =>
          have hcount : depth + (1 + dictCountList dd + dictCountList rest) < level := by
            simp [dictCountList, dictCountVal] at hlevel
            omega
          have hsd : sizeOf dd < n := by
            have : sizeOf dd < sizeOf ((k, PyVal.dict dd) :: rest) := by
              simp
              omega
            omega
          have hsr : sizeOf rest < n := by
            have : sizeOf rest < sizeOf ((k, PyVal.dict dd) :: rest) := by
              simp
            omega
          have h1 : ¬ level ≤ depth + 1 := by omega
          simp only [goList, goVal, if_neg h1]
          rw [ih (sizeOf dd) hsd dd res (depth + 1) (le_refl _) (by omega)]
          rw [ih (sizeOf rest) hsr rest (leavesList dd res) (depth + 1) (le_refl _) (by omega)]
          simp only [leavesList, leavesVal, topDicts, Prod.mk.injEq]
          exact ⟨trivial, by omega⟩

/-- C5 counterexample: the level-4 flatten of `dataCE`, whose nesting depth
is 3, is not the set of all leaf values: the sibling dicts before `s4` push
the frame-local depth to 4, the cap engages there, and the inner dict
contributes its key `w` instead of its leaf `4`. -/
theorem flatten_nesting_depth_counterexample :
    1 + depthList dataCE < 4 ∧
    "w" ∈ flatten dataCE 4 ∧ "w" ∉ allLeaves dataCE ∧
    "4" ∈ allLeaves dataCE ∧ "4" ∉ flatten dataCE 4 := by
  refine ⟨?_, ?_, ?_, ?_, ?_⟩ <;> decide

/-- C5 (amended): `flatten` with `level = 0` returns exactly the elements
obtained by iterating each top-level value once, never descending into
nested mappings; and with a level larger than the *total number of nested
mappings in `data`* (larger than the nesting depth is not enough, because
the loop's frame-local depth also counts earlier dict siblings) it returns
the set of all leaf values collected by recursing through every nested
mapping. -/
theorem flatten_level_semantics :
    (∀ (data : List (String × PyVal)) (x : String),
      x ∈ flatten data 0 ↔ ∃ p ∈ data, x ∈ iterElems p.2) ∧
    (∀ (data : List (String × PyVal)) (level : Nat),
      dictCountList data < level → flatten data level = allLeaves data) := by
  constructor
  · intro data x
    have h0 : flatten data 0 = capAdd data [] := rfl
    rw [h0, mem_capAdd]
    simp
  · intro data level hlt
    unfold flatten get_ad_ids
    rw [if_neg (by omega)]
    rw [goList_leaves level (sizeOf data) data [] 0 (le_refl _) (by omega)]
    rfl

/-- Witness for C5: the level-0 characterisation at `dataCE`, and a level
larger than `dataCE`'s five nested mappings, which does reach every leaf. -/
theorem flatten_level_semantics_inst :
    (("1" : String) ∈ flatten dataCE 0 ↔ ∃ p ∈ dataCE, ("1" : String) ∈ iterElems p.2) ∧
    flatten dataCE 6 = allLeaves dataCE :=
  ⟨flatten_level_semantics.1 dataCE "1", flatten_level_semantics.2 dataCE 6 (by decide)⟩

end Elasticfactor
